import Mathlib

/-!
Verification of the httpoint per-request pipeline: the hand-rolled
multipart decoder, the router, the body collector, the request-context
factory and security guard, the directory-listing renderer and the file
size formatter.  Definitions are shallow embeddings of the TypeScript
sources: Node Buffers become lists of byte values, JavaScript strings
become Lean strings or char lists, and the filesystem and HTTP stack are
passed in as explicit parameters.
-/

namespace HTTPoint

/-- Bytes models a Node Buffer as a list of byte values. -/
abbrev Bytes := List Nat

/-- ascii gives the byte list of an ASCII string literal, modelling
Buffer.from on header text. -/
def ascii (s : String) : Bytes := s.data.map Char.toNat

/-- crlf is the two byte sequence CR LF. -/
def crlf : Bytes := [13, 10]

/-- findIdx0 nd l is the smallest index at which nd occurs as a
contiguous run in l, scanning from the head; none when nd never occurs. -/
def findIdx0 {α : Type} [DecidableEq α] (nd : List α) : List α → Option Nat
  | [] => if nd = [] then some 0 else none
  | x :: rest =>
    if nd.isPrefixOf (x :: rest) then some 0
    else (findIdx0 nd rest).map (· + 1)

/-- bufIndexOf hay nd start models Buffer.indexOf(nd, start): the least
absolute index, at least start, where nd occurs in hay. -/
def bufIndexOf (hay nd : Bytes) (start : Nat) : Option Nat :=
  (findIdx0 nd (hay.drop start)).map (· + start)

/-- subarray b s e models Buffer.subarray(s, e). -/
def subarray (b : Bytes) (s e : Nat) : Bytes := (b.drop s).take (e - s)

theorem findIdx0_eq_some_iff {α : Type} [DecidableEq α] {nd : List α} (hnd : nd ≠ [])
    (l : List α) (e : Nat) :
    findIdx0 nd l = some e ↔ (nd <+: l.drop e ∧ ∀ j, j < e → ¬ nd <+: l.drop j) := by
  induction l generalizing e with
  | nil =>
    simp only [findIdx0, if_neg hnd, List.drop_nil]
    constructor
    · intro h; exact absurd h (by simp)
    · rintro ⟨h, -⟩
      exact absurd (List.prefix_nil.mp h) hnd
  | cons x rest ih =>
    by_cases hpre : nd.isPrefixOf (x :: rest)
    · rw [List.isPrefixOf_iff_prefix] at hpre
      simp only [findIdx0, if_pos (List.isPrefixOf_iff_prefix.mpr hpre)]
      cases e with
      | zero => simpa using hpre
      | succ e' =>
        constructor
        · intro h; exact absurd h (by simp)
        · rintro ⟨-, hmin⟩
          exact absurd hpre (by simpa using hmin 0 (Nat.succ_pos e'))
    · have hpre' : ¬ nd <+: (x :: rest) := fun h =>
        hpre (List.isPrefixOf_iff_prefix.mpr h)
      simp only [findIdx0, if_neg hpre]
      cases e with
      | zero =>
        constructor
        · intro h
          simp only [Option.map_eq_some'] at h
          obtain ⟨a, -, ha⟩ := h
          omega
        · rintro ⟨h, -⟩
          exact absurd h (by simpa using hpre')
      | succ e' =>
        have : ((findIdx0 nd rest).map (· + 1) = some (e' + 1)) ↔ findIdx0 nd rest = some e' := by
          simp only [Option.map_eq_some']
          constructor
          · rintro ⟨a, ha, hae⟩
            obtain rfl : a = e' := by omega
            exact ha
          · intro h; exact ⟨e', h, rfl⟩
        rw [this, ih e']
        constructor
        · rintro ⟨h1, h2⟩
          refine ⟨by simpa using h1, ?_⟩
          intro j hj
          cases j with
          | zero => simpa using hpre'
          | succ j' => simpa using h2 j' (by omega)
        · rintro ⟨h1, h2⟩
          refine ⟨by simpa using h1, ?_⟩
          intro j hj
          simpa using h2 (j + 1) (by omega)

theorem findIdx0_eq_none_iff {α : Type} [DecidableEq α] {nd : List α} (hnd : nd ≠ [])
    (l : List α) :
    findIdx0 nd l = none ↔ ∀ j, ¬ nd <+: l.drop j := by
  induction l with
  | nil =>
    simp only [findIdx0, if_neg hnd, List.drop_nil]
    constructor
    · intro _ j h
      exact absurd (List.prefix_nil.mp h) hnd
    · intro _; trivial
  | cons x rest ih =>
    by_cases hpre : nd.isPrefixOf (x :: rest)
    · rw [List.isPrefixOf_iff_prefix] at hpre
      simp only [findIdx0, if_pos (List.isPrefixOf_iff_prefix.mpr hpre)]
      constructor
      · intro h; exact absurd h (by simp)
      · intro h
        exact absurd hpre (by simpa using h 0)
    · have hpre' : ¬ nd <+: (x :: rest) := fun h =>
        hpre (List.isPrefixOf_iff_prefix.mpr h)
      simp only [findIdx0, if_neg hpre, Option.map_eq_none', ih]
      constructor
      · intro h j
        cases j with
        | zero => simpa using hpre'
        | succ j' => simpa using h j'
      · intro h j
        simpa using h (j + 1)

theorem bufIndexOf_eq_some_iff {hay nd : Bytes} (hnd : nd ≠ []) (start e : Nat) :
    bufIndexOf hay nd start = some e ↔
      (start ≤ e ∧ nd <+: hay.drop e ∧
        ∀ j, start ≤ j → j < e → ¬ nd <+: hay.drop j) := by
  unfold bufIndexOf
  simp only [Option.map_eq_some']
  constructor
  · rintro ⟨a, ha, rfl⟩
    rw [findIdx0_eq_some_iff hnd] at ha
    obtain ⟨h1, h2⟩ := ha
    rw [List.drop_drop] at h1
    refine ⟨by omega, by rwa [Nat.add_comm] at h1, ?_⟩
    intro j hj1 hj2
    have := h2 (j - start) (by omega)
    rw [List.drop_drop] at this
    have hje : start + (j - start) = j := by omega
    rwa [hje] at this
  · rintro ⟨h0, h1, h2⟩
    refine ⟨e - start, ?_, by omega⟩
    rw [findIdx0_eq_some_iff hnd]
    constructor
    · rw [List.drop_drop]
      have hje : start + (e - start) = e := by omega
      rwa [hje]
    · intro j hj
      rw [List.drop_drop]
      exact h2 (start + j) (by omega) (by omega)

theorem bufIndexOf_eq_none_iff {hay nd : Bytes} (hnd : nd ≠ []) (start : Nat) :
    bufIndexOf hay nd start = none ↔ ∀ j, start ≤ j → ¬ nd <+: hay.drop j := by
  unfold bufIndexOf
  simp only [Option.map_eq_none', findIdx0_eq_none_iff hnd]
  constructor
  · intro h j hj
    have := h (j - start)
    rw [List.drop_drop] at this
    have hje : start + (j - start) = j := by omega
    rwa [hje] at this
  · intro h j
    rw [List.drop_drop]
    exact h (start + j) (by omega)

/-- CleanBefore nd u states that nd does not occur in u ++ nd at any
index strictly before u.length; it is the key hygiene condition on part
payloads relative to the boundary marker. -/
def CleanBefore (nd u : Bytes) : Prop :=
  ∀ i, i < u.length → ¬ nd <+: (u ++ nd).drop i

instance (nd u : Bytes) : Decidable (CleanBefore nd u) := by
  unfold CleanBefore
  infer_instance

theorem prefix_append_iff_of_le {α : Type} {nd u : List α} (v : List α)
    (hlen : nd.length ≤ u.length) :
    nd <+: u ++ v ↔ nd <+: u := by
  constructor
  · intro h
    rw [List.prefix_iff_eq_take] at h ⊢
    rwa [List.take_append_of_le_length hlen] at h
  · intro h
    exact h.trans (List.prefix_append u v)

theorem bufIndexOf_resolve {hay nd u v : Bytes} {start : Nat} (hnd : nd ≠ [])
    (hdrop : hay.drop start = u ++ (nd ++ v)) (hclean : CleanBefore nd u) :
    bufIndexOf hay nd start = some (start + u.length) := by
  rw [bufIndexOf_eq_some_iff hnd]
  refine ⟨Nat.le_add_right _ _, ?_, ?_⟩
  · have : hay.drop (start + u.length) = nd ++ v := by
      have := List.drop_drop u.length start hay
      rw [hdrop] at this
      rw [← this, List.drop_left u (nd ++ v)]
    rw [this]
    exact List.prefix_append nd v
  · intro j hj1 hj2
    set i := j - start with hi
    have hij : j = start + i := by omega
    have hiu : i < u.length := by omega
    have hdj : hay.drop j = (u ++ nd).drop i ++ v := by
      have := List.drop_drop i start hay
      rw [hdrop] at this
      rw [hij, ← this, ← List.append_assoc u nd v,
        List.drop_append_of_le_length (by simp; omega)]
    rw [hdj]
    intro hcon
    have hb : nd.length ≤ ((u ++ nd).drop i).length := by
      simp only [List.length_drop, List.length_append]
      omega
    rw [prefix_append_iff_of_le v hb] at hcon
    exact hclean i hiu hcon

theorem bufIndexOf_head {hay nd t : Bytes} {start : Nat} (hnd : nd ≠ [])
    (hdrop : hay.drop start = nd ++ t) :
    bufIndexOf hay nd start = some start := by
  have := bufIndexOf_resolve hnd (u := []) (v := t) (by simpa using hdrop)
    (fun i hi => absurd hi (Nat.not_lt_zero i))
  simpa using this

theorem bufIndexOf_sub_none {hay nd nd2 : Bytes} {start : Nat} (hnd : nd ≠ [])
    (hnd2 : nd2 ≠ []) (hsub : nd <+: nd2)
    (h : bufIndexOf hay nd start = none) :
    bufIndexOf hay nd2 start = none := by
  rw [bufIndexOf_eq_none_iff hnd] at h
  rw [bufIndexOf_eq_none_iff hnd2]
  intro j hj hcon
  exact h j hj (hsub.trans hcon)

/-- MultipartPart mirrors the MultipartPart record of the multipart
utility; the two JavaScript strings are modelled by their byte contents
(Buffer.toString is the identity at byte level on ASCII text). -/
structure MultipartPart where
  name : Bytes
  filename : Bytes
  data : Bytes
deriving DecidableEq

/-- rxMatchAt needle hay i tries the regex needle([^\x22]+)\x22 at
position i of hay: the quoted literal, one or more non-quote bytes, then
a closing double quote; it returns the capture group on success. -/
def rxMatchAt (needle hay : Bytes) (i : Nat) : Option Bytes :=
  if needle.isPrefixOf (hay.drop i) then
    let rest := hay.drop (i + needle.length)
    let run := rest.takeWhile (fun b => b ≠ 34)
    if run ≠ [] ∧ run.length < rest.length then some run else none
  else none

/-- rxCaptureAux scans candidate positions left to right, as a regex
engine does when looking for the first full match. -/
def rxCaptureAux (needle hay : Bytes) : Nat → Nat → Option Bytes
  | _, 0 => none
  | i, fuel + 1 =>
    match rxMatchAt needle hay i with
    | some r => some r
    | none => rxCaptureAux needle hay (i + 1) fuel

/-- rxCapture needle hay models the JavaScript match call against the
regex needle([^\x22]+)\x22 and yields the first capture group. -/
def rxCapture (needle hay : Bytes) : Option Bytes :=
  rxCaptureAux needle hay 0 (hay.length + 1)

/-- splitOnSeqAux is the fuelled worker for splitOnSeq; every step
consumes at least one byte, so fuel of l.length + 1 never runs out. -/
def splitOnSeqAux (sep : Bytes) : Nat → Bytes → List Bytes
  | 0, l => [l]
  | fuel + 1, l =>
    if sep = [] then [l]
    else
      match findIdx0 sep l with
      | none => [l]
      | some i => l.take i :: splitOnSeqAux sep fuel (l.drop (i + sep.length))

/-- splitOnSeq sep l models the JavaScript String split method with
separator sep: repeated splitting at the first occurrence. -/
def splitOnSeq (sep l : Bytes) : List Bytes := splitOnSeqAux sep (l.length + 1) l

/-- parsePartBytes models the per-part block of parseMultipart: locate
the CRLFCRLF divider, split header text from payload, find the
Content-Disposition line and extract the quoted name and filename
attributes; any failure drops the part. -/
def parsePartBytes (part : Bytes) : Option MultipartPart :=
  match bufIndexOf part (ascii "\r\n\r\n") 0 with
  | none => none
  | some headerEnd =>
    let headers := subarray part 0 headerEnd
    let data := part.drop (headerEnd + 4)
    let headerLines := splitOnSeq crlf headers
    match headerLines.find? (fun line => (ascii "Content-Disposition").isPrefixOf line) with
    | none => none
    | some contentDisposition =>
      match rxCapture (ascii "filename=\"") contentDisposition,
            rxCapture (ascii "name=\"") contentDisposition with
      | some fn, some nm => some ⟨nm, fn, data⟩
      | _, _ => none

/-- parseLoop models the scanning loop of parseMultipart.  The loop
advances start by at least the marker length on every iteration, so a
fuel of body.length + 1 iterations always suffices; the explicit fuel
argument keeps the recursion structural. -/
def parseLoop (body marker endMarker : Bytes) : Nat → Nat → List MultipartPart
  | 0, _ => []
  | fuel + 1, start =>
    match bufIndexOf body marker start with
    | none => []
    | some e =>
      let partStart := e + marker.length
      match bufIndexOf body marker partStart with
      | some partEnd =>
        let parsed := (parsePartBytes (subarray body partStart partEnd)).toList
        if bufIndexOf body endMarker partStart = some partEnd then parsed
        else parsed ++ parseLoop body marker endMarker fuel partEnd
      | none =>
        match bufIndexOf body endMarker partStart with
        | some endIdx => (parsePartBytes (subarray body partStart endIdx)).toList
        | none => []

/-- parseMultipart models parseMultipart of the multipart utility: scan
for dash-dash-boundary markers and decode each part in between. -/
def parseMultipart (body : Bytes) (boundary : Bytes) : List MultipartPart :=
  let boundaryBuffer := ascii "--" ++ boundary
  let endBoundaryBuffer := ascii "--" ++ boundary ++ ascii "--"
  parseLoop body boundaryBuffer endBoundaryBuffer (body.length + 1) 0

/-- FormField is the input record of the multipart encoder
createMultipartData in tests/helpers.ts: a field name, an optional
client filename, and the payload bytes. -/
structure FormField where
  name : Bytes
  filename : Option Bytes
  data : Bytes
deriving DecidableEq

/-- cdLineOf f is the Content-Disposition header line the encoder emits
for field f. -/
def cdLineOf (f : FormField) : Bytes :=
  match f.filename with
  | some fn =>
    ascii "Content-Disposition: form-data; name=\"" ++ f.name ++
      ascii "\"; filename=\"" ++ fn ++ ascii "\""
  | none => ascii "Content-Disposition: form-data; name=\"" ++ f.name ++ ascii "\""

/-- headerBlockOf f is the header section the encoder emits for field f,
ending in the CRLFCRLF divider. -/
def headerBlockOf (f : FormField) : Bytes :=
  match f.filename with
  | some _ =>
    cdLineOf f ++ crlf ++ ascii "Content-Type: application/octet-stream" ++ crlf ++ crlf
  | none => cdLineOf f ++ crlf ++ crlf

/-- encodeField boundary f is the byte chunk the encoder pushes for one
field: marker line, headers, payload, trailing CRLF. -/
def encodeField (boundary : Bytes) (f : FormField) : Bytes :=
  ascii "--" ++ boundary ++ crlf ++ headerBlockOf f ++ f.data ++ crlf

/-- encodeMultipart boundary fields models createMultipartData of
tests/helpers.ts, generalized over the boundary (the helper pins one
concrete boundary constant; the round-trip law of the spec quantifies
over all valid boundaries). -/
def encodeMultipart (boundary : Bytes) (fields : List FormField) : Bytes :=
  (fields.map (encodeField boundary)).flatten ++
    (ascii "--" ++ boundary ++ ascii "--" ++ crlf)

/-- markOf boundary is the dash-dash-boundary marker buffer. -/
def markOf (boundary : Bytes) : Bytes := ascii "--" ++ boundary

/-- endMarkOf boundary is the closing marker buffer. -/
def endMarkOf (boundary : Bytes) : Bytes := markOf boundary ++ ascii "--"

/-- interOf f is the byte span lying between two consecutive marker
occurrences that belongs to field f, as the decoder sees it. -/
def interOf (f : FormField) : Bytes := crlf ++ headerBlockOf f ++ f.data ++ crlf

/-- restOf boundary fields is the encoded byte stream that follows a
marker occurrence. -/
def restOf (boundary : Bytes) : List FormField → Bytes
  | [] => ascii "--" ++ crlf
  | f :: fs => interOf f ++ (markOf boundary ++ restOf boundary fs)

theorem encodeMultipart_eq_restOf (boundary : Bytes) (fields : List FormField) :
    encodeMultipart boundary fields = markOf boundary ++ restOf boundary fields := by
  induction fields with
  | nil =>
    simp [encodeMultipart, restOf, markOf, List.append_assoc]
  | cons f fs ih =>
    have step : encodeMultipart boundary (f :: fs) =
        encodeField boundary f ++ encodeMultipart boundary fs := by
      simp [encodeMultipart, List.append_assoc]
    have eF : encodeField boundary f = markOf boundary ++ interOf f := by
      simp [encodeField, markOf, interOf, List.append_assoc]
    rw [step, ih, eF, restOf]
    simp [List.append_assoc]

/-- HeaderSafe s holds of header attribute text that is nonempty and
free of CR, LF and the double quote. -/
def HeaderSafe (s : Bytes) : Prop :=
  s ≠ [] ∧ ∀ b ∈ s, b ≠ 13 ∧ b ≠ 10 ∧ b ≠ 34

/-- NameSafe additionally bans the equals sign, ruling out a field name
whose tail fakes a filename= attribute. -/
def NameSafe (s : Bytes) : Prop := HeaderSafe s ∧ ∀ b ∈ s, b ≠ 61

/-- BoundaryOk b holds of boundary strings that are nonempty and free of
CR and LF, as HTTP header parameter tokens are. -/
def BoundaryOk (b : Bytes) : Prop := b ≠ [] ∧ ∀ x ∈ b, x ≠ 13 ∧ x ≠ 10

/-- FieldOk boundary f collects the hygiene conditions under which the
decoder recovers field f exactly: safe attribute text and no early
marker occurrence inside the encoded span of f. -/
def FieldOk (boundary : Bytes) (f : FormField) : Prop :=
  NameSafe f.name ∧ (∀ fn ∈ f.filename, HeaderSafe fn) ∧
    CleanBefore (markOf boundary) (interOf f)

/-- ValidUpload boundary fields is the validity condition of the
round-trip law. -/
def ValidUpload (boundary : Bytes) (fields : List FormField) : Prop :=
  BoundaryOk boundary ∧ ∀ f ∈ fields, FieldOk boundary f

instance (s : Bytes) : Decidable (HeaderSafe s) := by
  unfold HeaderSafe; infer_instance

instance (s : Bytes) : Decidable (NameSafe s) := by
  unfold NameSafe; infer_instance

instance (b : Bytes) : Decidable (BoundaryOk b) := by
  unfold BoundaryOk; infer_instance

instance (b : Bytes) (f : FormField) : Decidable (FieldOk b f) := by
  unfold FieldOk; infer_instance

instance (b : Bytes) (fs : List FormField) : Decidable (ValidUpload b fs) := by
  unfold ValidUpload; infer_instance

/-- decodeField f is what the decoder recovers for field f: dropped when
f carries no filename, otherwise the part including the CRLF the encoder
appends after the payload. -/
def decodeField (f : FormField) : Option MultipartPart :=
  f.filename.map fun fn => ⟨f.name, fn, f.data ++ crlf⟩

theorem cons_not_prefix_drop {a : Bytes} {n0 : Nat} {ntail : Bytes}
    (ha : ∀ b ∈ a, b ≠ n0) (y : Bytes) (i : Nat) (hi : i < a.length) :
    ¬ (n0 :: ntail) <+: (a ++ y).drop i := by
  rw [List.drop_append_of_le_length (by omega)]
  have hdi : a.drop i = a[i] :: a.drop (i + 1) := List.drop_eq_getElem_cons hi
  rw [hdi, List.cons_append, List.cons_prefix_cons]
  rintro ⟨rfl, -⟩
  exact ha _ (a.getElem_mem hi) rfl

theorem cons_not_prefix_drop_plain {a : Bytes} {n0 : Nat} {ntail : Bytes}
    (ha : ∀ b ∈ a, b ≠ n0) (i : Nat) :
    ¬ (n0 :: ntail) <+: a.drop i := by
  by_cases hi : i < a.length
  · have := @cons_not_prefix_drop a n0 ntail ha [] i hi
    simpa using this
  · rw [List.drop_eq_nil_of_le (by omega)]
    intro h
    exact absurd (List.prefix_nil.mp h) (by simp)

theorem cleanBefore_of_notin_head {a : Bytes} {n0 : Nat} {ntail : Bytes}
    (ha : ∀ b ∈ a, b ≠ n0) : CleanBefore (n0 :: ntail) a :=
  fun i hi => cons_not_prefix_drop ha _ i hi

theorem findIdx0_none_of_cleanBefore {sep p : Bytes} (hsep : sep ≠ [])
    (h : CleanBefore sep p) : findIdx0 sep p = none := by
  rw [findIdx0_eq_none_iff hsep]
  intro j hcon
  have hj : j < p.length := by
    by_contra hge
    rw [List.drop_eq_nil_of_le (by omega)] at hcon
    exact hsep (List.prefix_nil.mp hcon)
  apply h j hj
  rw [List.drop_append_of_le_length (by omega)]
  exact hcon.trans (List.prefix_append _ _)

theorem takeWhile_append_all {p : Nat → Bool} {a : Bytes} (b : Bytes)
    (ha : ∀ x ∈ a, p x) :
    (a ++ b).takeWhile p = a ++ b.takeWhile p := by
  induction a with
  | nil => simp
  | cons x rest ih =>
    have hx : p x := ha x (by simp)
    simp only [List.cons_append, List.takeWhile_cons, hx, if_true]
    rw [ih (fun y hy => ha y (by simp [hy]))]

theorem prefix_drop_getElem {nd l : Bytes} {j k : Nat} (h : nd <+: l.drop j)
    (hk : k < nd.length) : l[j + k]? = nd[k]? := by
  have h1 : (l.drop j)[k]? = nd[k]? := by
    obtain ⟨t, ht⟩ := h
    rw [← ht, List.getElem?_append]
    simp [hk, List.getElem?_eq_getElem hk]
  rwa [List.getElem?_drop] at h1

theorem getElem?_append_left' {l₁ l₂ : Bytes} {k : Nat} (hk : k < l₁.length) :
    (l₁ ++ l₂)[k]? = l₁[k]? := by
  rw [List.getElem?_append]
  simp [hk]

theorem getElem?_append_right' {l₁ l₂ : Bytes} {k : Nat} (hk : l₁.length ≤ k) :
    (l₁ ++ l₂)[k]? = l₂[k - l₁.length]? := by
  rw [List.getElem?_append]
  simp [Nat.not_lt.mpr hk]

theorem drop_append_right' {α : Type} {a b : List α} {i : Nat} (h : a.length ≤ i) :
    (a ++ b).drop i = b.drop (i - a.length) := by
  rw [List.drop_append_eq_append_drop, List.drop_eq_nil_of_le h]
  simp

/-- joinSep sep pieces interleaves the separator between the pieces, the
inverse view of the split operation. -/
def joinSep (sep : Bytes) : List Bytes → Bytes
  | [] => []
  | [x] => x
  | x :: y :: rest => x ++ sep ++ joinSep sep (y :: rest)

theorem splitOnSeqAux_joinSep {sep : Bytes} (hsep : sep ≠ []) :
    ∀ (pieces : List Bytes) (fuel : Nat),
      pieces ≠ [] →
      (joinSep sep pieces).length < fuel →
      (∀ p ∈ pieces, CleanBefore sep p) →
      splitOnSeqAux sep fuel (joinSep sep pieces) = pieces := by
  intro pieces
  induction pieces with
  | nil => intro fuel h; exact absurd rfl h
  | cons p rest ih =>
    intro fuel _ hfuel hclean
    obtain ⟨fuel, rfl⟩ : ∃ f, fuel = f + 1 := ⟨fuel - 1, by omega⟩
    cases rest with
    | nil =>
      have hnone : findIdx0 sep p = none :=
        findIdx0_none_of_cleanBefore hsep (hclean p (by simp))
      simp only [joinSep] at hfuel ⊢
      simp only [splitOnSeqAux, if_neg hsep, hnone]
    | cons q rest' =>
      have hcleanp : CleanBefore sep p := hclean p (by simp)
      set J := joinSep sep (q :: rest') with hJ
      have hshape : joinSep sep (p :: q :: rest') = p ++ sep ++ J := by
        simp [joinSep]
      have hfind : findIdx0 sep (p ++ sep ++ J) = some p.length := by
        rw [findIdx0_eq_some_iff hsep]
        constructor
        · rw [List.append_assoc, List.drop_left p (sep ++ J)]
          exact List.prefix_append sep J
        · intro j hj hcon
          rw [List.drop_append_of_le_length (by simp; omega)] at hcon
          have hb : sep.length ≤ ((p ++ sep).drop j).length := by
            simp only [List.length_drop, List.length_append]
            omega
          rw [prefix_append_iff_of_le J hb] at hcon
          exact hcleanp j hj hcon
      have htake : (p ++ sep ++ J).take p.length = p := by
        rw [List.append_assoc, List.take_append_of_le_length (by simp), List.take_length]
      have hdrop : (p ++ sep ++ J).drop (p.length + sep.length) = J := by
        have : p.length + sep.length = (p ++ sep).length := by simp
        rw [this, List.drop_left (p ++ sep) J]
      have hslen : 0 < sep.length := List.length_pos.mpr hsep
      have hJlen : J.length < fuel := by
        rw [hshape] at hfuel
        simp only [List.length_append] at hfuel
        omega
      rw [hshape]
      simp only [splitOnSeqAux, if_neg hsep, hfind, htake, hdrop]
      rw [ih fuel (by simp) hJlen (fun x hx => hclean x (by simp [hx]))]

theorem splitOnSeq_joinSep {sep : Bytes} (hsep : sep ≠ []) (pieces : List Bytes)
    (hne : pieces ≠ []) (hclean : ∀ p ∈ pieces, CleanBefore sep p) :
    splitOnSeq sep (joinSep sep pieces) = pieces :=
  splitOnSeqAux_joinSep hsep pieces _ hne (Nat.lt_succ_self _) hclean

theorem rxCaptureAux_resolve {needle hay r : Bytes} :
    ∀ (fuel i e : Nat), i ≤ e → e < i + fuel →
      (∀ j, i ≤ j → j < e → ¬ needle <+: hay.drop j) →
      rxMatchAt needle hay e = some r →
      rxCaptureAux needle hay i fuel = some r := by
  intro fuel
  induction fuel with
  | zero => intro i e h1 h2; omega
  | succ fuel ih =>
    intro i e h1 h2 hmin hmatch
    by_cases hie : i = e
    · subst hie
      simp only [rxCaptureAux, hmatch]
    · have hnoi : rxMatchAt needle hay i = none := by
        have : ¬ needle <+: hay.drop i := hmin i (Nat.le_refl i) (by omega)
        unfold rxMatchAt
        rw [if_neg (fun hc => this (List.isPrefixOf_iff_prefix.mp hc))]
      simp only [rxCaptureAux, hnoi]
      exact ih (i + 1) e (by omega) (by omega) (fun j hj1 hj2 => hmin j (by omega) hj2) hmatch

theorem rxCapture_resolve {needle hay r : Bytes} (hne : needle ≠ []) {e : Nat}
    (hmin : ∀ j, j < e → ¬ needle <+: hay.drop j)
    (hmatch : rxMatchAt needle hay e = some r) :
    rxCapture needle hay = some r := by
  have hpre : needle <+: hay.drop e := by
    by_cases hc : needle.isPrefixOf (hay.drop e)
    · exact List.isPrefixOf_iff_prefix.mp hc
    · unfold rxMatchAt at hmatch
      rw [if_neg hc] at hmatch
      exact absurd hmatch (by simp)
  have hlen : e < hay.length + 1 := by
    have h1 : needle.length ≤ (hay.drop e).length := hpre.length_le
    have h2 : 0 < needle.length := List.length_pos.mpr hne
    simp only [List.length_drop] at h1
    omega
  exact rxCaptureAux_resolve (hay.length + 1) 0 e (Nat.zero_le e) (by omega)
    (fun j _ hj2 => hmin j hj2) hmatch

theorem rxCapture_none {needle hay : Bytes}
    (h : ∀ j, ¬ needle <+: hay.drop j) : rxCapture needle hay = none := by
  have haux : ∀ (fuel i : Nat), rxCaptureAux needle hay i fuel = none := by
    intro fuel
    induction fuel with
    | zero => intro i; rfl
    | succ fuel ih =>
      intro i
      have hnoi : rxMatchAt needle hay i = none := by
        unfold rxMatchAt
        rw [if_neg (fun hc => h i (List.isPrefixOf_iff_prefix.mp hc))]
      simp only [rxCaptureAux, hnoi]
      exact ih (i + 1)
  exact haux (hay.length + 1) 0

theorem cdLineOf_some {f : FormField} {fn : Bytes} (hfn : f.filename = some fn) :
    cdLineOf f = ascii "Content-Disposition: form-data; name=\"" ++
      (f.name ++ (ascii "\"; " ++ (ascii "filename=\"" ++ (fn ++ [34])))) := by
  have h1 : ascii "\"; filename=\"" = ascii "\"; " ++ ascii "filename=\"" := by decide
  have h2 : ascii "\"" = [34] := by decide
  simp [cdLineOf, hfn, h1, h2, List.append_assoc]

theorem cdLineOf_none {f : FormField} (hfn : f.filename = none) :
    cdLineOf f = ascii "Content-Disposition: form-data; name=\"" ++ (f.name ++ [34]) := by
  have h2 : ascii "\"" = [34] := by decide
  simp [cdLineOf, hfn, h2]

theorem cd61 {name fn : Bytes} (hn : NameSafe name) {k : Nat}
    (hk : k < name.length + 49)
    (h61 : (ascii "Content-Disposition: form-data; name=\"" ++
      (name ++ (ascii "\"; " ++ (ascii "filename=\"" ++ (fn ++ [34])))))[k]? = some 61) :
    k = 36 := by
  have L1len : (ascii "Content-Disposition: form-data; name=\"").length = 38 := by decide
  have L3len : (ascii "\"; ").length = 3 := by decide
  have NFlen : (ascii "filename=\"").length = 10 := by decide
  by_cases hk1 : k < 38
  · rw [getElem?_append_left' (by omega)] at h61
    exact (by decide :
      ∀ m, m < 38 → (ascii "Content-Disposition: form-data; name=\"")[m]? = some 61 → m = 36)
      k hk1 h61
  · rw [getElem?_append_right' (by omega)] at h61
    rw [L1len] at h61
    by_cases hk2 : k - 38 < name.length
    · rw [getElem?_append_left' hk2] at h61
      have hmem : (61 : Nat) ∈ name := List.mem_iff_getElem?.mpr ⟨_, h61⟩
      exact absurd rfl (hn.2 61 hmem)
    · by_cases hk3 : k - 38 - name.length < 3
      · rw [getElem?_append_right' (by omega),
          getElem?_append_left' (by rw [L3len]; exact hk3)] at h61
        exact absurd h61 ((by decide :
          ∀ m, m < 3 → (ascii "\"; ")[m]? ≠ some 61) _ hk3)
      · rw [getElem?_append_right' (by omega),
          getElem?_append_right' (by rw [L3len]; omega), L3len] at h61
        rw [getElem?_append_left' (by rw [NFlen]; omega)] at h61
        exact absurd h61 ((by decide :
          ∀ m, m < 8 → (ascii "filename=\"")[m]? ≠ some 61) _ (by omega))

theorem cd61_noFn {name : Bytes} (hn : NameSafe name) {k : Nat}
    (h61 : (ascii "Content-Disposition: form-data; name=\"" ++
      (name ++ [34]))[k]? = some 61) :
    k = 36 := by
  have L1len : (ascii "Content-Disposition: form-data; name=\"").length = 38 := by decide
  by_cases hk1 : k < 38
  · rw [getElem?_append_left' (by omega)] at h61
    exact (by decide :
      ∀ m, m < 38 → (ascii "Content-Disposition: form-data; name=\"")[m]? = some 61 → m = 36)
      k hk1 h61
  · rw [getElem?_append_right' (by omega)] at h61
    rw [L1len] at h61
    by_cases hk2 : k - 38 < name.length
    · rw [getElem?_append_left' hk2] at h61
      have hmem : (61 : Nat) ∈ name := List.mem_iff_getElem?.mpr ⟨_, h61⟩
      exact absurd rfl (hn.2 61 hmem)
    · rw [getElem?_append_right' (by omega)] at h61
      have : ∀ m : Nat, ¬ ([34] : Bytes)[m]? = some 61 := by
        intro m
        match m with
        | 0 => decide
        | m + 1 => simp
      exact absurd h61 (this _)

theorem rxCapture_filename_some {f : FormField} {fn : Bytes} (hfn : f.filename = some fn)
    (hn : NameSafe f.name) (hf : HeaderSafe fn) :
    rxCapture (ascii "filename=\"") (cdLineOf f) = some fn := by
  have hcd := cdLineOf_some hfn
  have L1len : (ascii "Content-Disposition: form-data; name=\"").length = 38 := by decide
  have L3len : (ascii "\"; ").length = 3 := by decide
  have NFlen : (ascii "filename=\"").length = 10 := by decide
  have hdropE : (cdLineOf f).drop (38 + f.name.length + 3) =
      ascii "filename=\"" ++ (fn ++ [34]) := by
    rw [hcd, ← List.append_assoc, ← List.append_assoc]
    have hl : ((ascii "Content-Disposition: form-data; name=\"" ++ f.name) ++
        ascii "\"; ").length = 38 + f.name.length + 3 := by
      simp [L1len, L3len]
      omega
    rw [← hl, List.drop_left]
  refine rxCapture_resolve (by decide) (e := 38 + f.name.length + 3) ?_ ?_
  · intro j hj hcon
    have h61 := prefix_drop_getElem (k := 8) hcon (by rw [NFlen]; omega)
    rw [(by decide : (ascii "filename=\"")[8]? = some 61)] at h61
    rw [hcd] at h61
    have h36 := cd61 hn (by omega) h61
    obtain rfl : j = 28 := by omega
    have h0 := prefix_drop_getElem (k := 0) hcon (by rw [NFlen]; omega)
    rw [(by decide : (ascii "filename=\"")[0]? = some 102)] at h0
    rw [hcd, Nat.add_zero, getElem?_append_left' (by rw [L1len]; omega)] at h0
    rw [(by decide :
      (ascii "Content-Disposition: form-data; name=\"")[28]? = some 116)] at h0
    exact absurd h0 (by decide)
  · have hpre : (ascii "filename=\"").isPrefixOf
        ((cdLineOf f).drop (38 + f.name.length + 3)) = true := by
      rw [hdropE]
      exact List.isPrefixOf_iff_prefix.mpr (List.prefix_append _ _)
    have hrest : (cdLineOf f).drop (38 + f.name.length + 3 +
        (ascii "filename=\"").length) = fn ++ [34] := by
      rw [hcd, ← List.append_assoc, ← List.append_assoc, ← List.append_assoc]
      have hl : (((ascii "Content-Disposition: form-data; name=\"" ++ f.name) ++
          ascii "\"; ") ++ ascii "filename=\"").length =
          38 + f.name.length + 3 + (ascii "filename=\"").length := by
        simp [L1len, L3len]
        omega
      rw [← hl, List.drop_left]
    have hrun : List.takeWhile (fun b => b ≠ 34) (fn ++ [34]) = fn := by
      rw [takeWhile_append_all _ (fun x hx => decide_eq_true ((hf.2 x hx).2.2))]
      simp
    unfold rxMatchAt
    rw [if_pos hpre, hrest]
    simp only [hrun]
    rw [if_pos ⟨hf.1, by simp⟩]

theorem rxCapture_name_some {f : FormField} {fn : Bytes} (hfn : f.filename = some fn)
    (hn : NameSafe f.name) :
    rxCapture (ascii "name=\"") (cdLineOf f) = some f.name := by
  have hcd := cdLineOf_some hfn
  have L1len : (ascii "Content-Disposition: form-data; name=\"").length = 38 := by decide
  have L1alen : (ascii "Content-Disposition: form-data; ").length = 32 := by decide
  have NNlen : (ascii "name=\"").length = 6 := by decide
  have hsplit : ascii "Content-Disposition: form-data; name=\"" =
      ascii "Content-Disposition: form-data; " ++ ascii "name=\"" := by decide
  refine rxCapture_resolve (by decide) (e := 32) ?_ ?_
  · intro j hj hcon
    have h61 := prefix_drop_getElem (k := 4) hcon (by rw [NNlen]; omega)
    rw [(by decide : (ascii "name=\"")[4]? = some 61)] at h61
    rw [hcd] at h61
    have h36 := cd61 hn (by omega) h61
    omega
  · have hdropE : (cdLineOf f).drop 32 = ascii "name=\"" ++
        (f.name ++ (ascii "\"; " ++ (ascii "filename=\"" ++ (fn ++ [34])))) := by
      rw [hcd, hsplit, List.append_assoc]
      rw [← L1alen, List.drop_left]
    have hpre : (ascii "name=\"").isPrefixOf ((cdLineOf f).drop 32) = true := by
      rw [hdropE]
      exact List.isPrefixOf_iff_prefix.mpr (List.prefix_append _ _)
    have h38 : 32 + (ascii "name=\"").length = 38 := by rw [NNlen]
    have hrest : (cdLineOf f).drop (32 + (ascii "name=\"").length) =
        f.name ++ (ascii "\"; " ++ (ascii "filename=\"" ++ (fn ++ [34]))) := by
      rw [h38, hcd, ← L1len, List.drop_left]
    have hrun : List.takeWhile (fun b => b ≠ 34)
        (f.name ++ (ascii "\"; " ++ (ascii "filename=\"" ++ (fn ++ [34])))) = f.name := by
      rw [takeWhile_append_all _ (fun x hx => decide_eq_true ((hn.1.2 x hx).2.2))]
      rw [(by decide : ascii "\"; " = 34 :: [59, 32])]
      simp
    unfold rxMatchAt
    rw [if_pos hpre, hrest]
    simp only [hrun]
    rw [if_pos ⟨hn.1.1, by
      simp only [List.length_append]
      have : 0 < (ascii "\"; ").length := by decide
      omega⟩]

theorem rxCapture_filename_none {f : FormField} (hfn : f.filename = none)
    (hn : NameSafe f.name) :
    rxCapture (ascii "filename=\"") (cdLineOf f) = none := by
  have hcd := cdLineOf_none hfn
  have L1len : (ascii "Content-Disposition: form-data; name=\"").length = 38 := by decide
  have NFlen : (ascii "filename=\"").length = 10 := by decide
  apply rxCapture_none
  intro j hcon
  have h61 := prefix_drop_getElem (k := 8) hcon (by rw [NFlen]; omega)
  rw [(by decide : (ascii "filename=\"")[8]? = some 61)] at h61
  rw [hcd] at h61
  have h36 := cd61_noFn hn h61
  obtain rfl : j = 28 := by omega
  have h0 := prefix_drop_getElem (k := 0) hcon (by rw [NFlen]; omega)
  rw [(by decide : (ascii "filename=\"")[0]? = some 102)] at h0
  rw [hcd, Nat.add_zero, getElem?_append_left' (by rw [L1len]; omega)] at h0
  rw [(by decide :
    (ascii "Content-Disposition: form-data; name=\"")[28]? = some 116)] at h0
  exact absurd h0 (by decide)

theorem cdLineOf_head (f : FormField) : ∃ t, cdLineOf f = 67 :: t := by
  have hlit : ascii "Content-Disposition: form-data; name=\"" =
      67 :: ascii "ontent-Disposition: form-data; name=\"" := by decide
  cases hopt : f.filename with
  | some fn =>
    rw [cdLineOf_some hopt, hlit]
    exact ⟨_, rfl⟩
  | none =>
    rw [cdLineOf_none hopt, hlit]
    exact ⟨_, rfl⟩

theorem cd_no_crlf {f : FormField} (hn : NameSafe f.name)
    (hf : ∀ fn ∈ f.filename, HeaderSafe fn) :
    ∀ b ∈ cdLineOf f, b ≠ 13 ∧ b ≠ 10 := by
  intro b hb
  cases hopt : f.filename with
  | some fn =>
    rw [cdLineOf_some hopt] at hb
    simp only [List.mem_append] at hb
    rcases hb with h | h | h | h | h | h
    · exact (by decide :
        ∀ b ∈ ascii "Content-Disposition: form-data; name=\"", b ≠ 13 ∧ b ≠ 10) b h
    · have := (hn.1.2 b h); exact ⟨this.1, this.2.1⟩
    · exact (by decide : ∀ b ∈ ascii "\"; ", b ≠ 13 ∧ b ≠ 10) b h
    · exact (by decide : ∀ b ∈ ascii "filename=\"", b ≠ 13 ∧ b ≠ 10) b h
    · have := (hf fn (by simp [hopt])).2 b h; exact ⟨this.1, this.2.1⟩
    · exact (by decide : ∀ b ∈ ([34] : Bytes), b ≠ 13 ∧ b ≠ 10) b h
  | none =>
    rw [cdLineOf_none hopt] at hb
    simp only [List.mem_append] at hb
    rcases hb with h | h | h
    · exact (by decide :
        ∀ b ∈ ascii "Content-Disposition: form-data; name=\"", b ≠ 13 ∧ b ≠ 10) b h
    · have := (hn.1.2 b h); exact ⟨this.1, this.2.1⟩
    · exact (by decide : ∀ b ∈ ([34] : Bytes), b ≠ 13 ∧ b ≠ 10) b h

theorem crlfcrlf_not_prefix_cons2 {X : Bytes} (hX : ∃ t, X = 67 :: t) :
    ¬ ([13, 10, 13, 10] : Bytes) <+: 13 :: 10 :: X := by
  obtain ⟨t, rfl⟩ := hX
  simp [List.cons_prefix_cons]

theorem cleanBefore_header2 {cd : Bytes} (hcd0 : ∃ t, cd = 67 :: t)
    (hcd : ∀ b ∈ cd, b ≠ 13 ∧ b ≠ 10) :
    CleanBefore [13, 10, 13, 10] (crlf ++ cd) := by
  intro i hi
  simp only [List.length_append, crlf, List.length_cons, List.length_nil] at hi
  have hw : (crlf ++ cd) ++ [13, 10, 13, 10] =
      13 :: 10 :: (cd ++ [13, 10, 13, 10]) := by
    simp [crlf]
  rw [hw]
  match i, hi with
  | 0, _ =>
    apply crlfcrlf_not_prefix_cons2
    obtain ⟨t, rfl⟩ := hcd0
    exact ⟨_, rfl⟩
  | 1, _ =>
    simp [List.cons_prefix_cons]
  | (k + 2), hi =>
    simp only [List.drop_succ_cons]
    exact cons_not_prefix_drop (fun b hb => (hcd b hb).1) _ k (by omega)

theorem cleanBefore_header4 {cd ct : Bytes} (hcd0 : ∃ t, cd = 67 :: t)
    (hct0 : ∃ t, ct = 67 :: t)
    (hcd : ∀ b ∈ cd, b ≠ 13 ∧ b ≠ 10) (hct : ∀ b ∈ ct, b ≠ 13 ∧ b ≠ 10) :
    CleanBefore [13, 10, 13, 10] (crlf ++ cd ++ crlf ++ ct) := by
  intro i hi
  simp only [List.length_append, crlf, List.length_cons, List.length_nil] at hi
  have hw : (crlf ++ cd ++ crlf ++ ct) ++ [13, 10, 13, 10] =
      13 :: 10 :: (cd ++ (13 :: 10 :: (ct ++ [13, 10, 13, 10]))) := by
    simp [crlf]
  rw [hw]
  match i, hi with
  | 0, _ =>
    apply crlfcrlf_not_prefix_cons2
    obtain ⟨t, rfl⟩ := hcd0
    exact ⟨_, rfl⟩
  | 1, _ =>
    simp [List.cons_prefix_cons]
  | (k + 2), hi =>
    simp only [List.drop_succ_cons]
    by_cases hk1 : k < cd.length
    · exact cons_not_prefix_drop (fun b hb => (hcd b hb).1) _ k hk1
    · by_cases hk2 : k = cd.length
      · subst hk2
        rw [List.drop_left]
        exact crlfcrlf_not_prefix_cons2 (by obtain ⟨t, rfl⟩ := hct0; exact ⟨_, rfl⟩)
      · rw [drop_append_right' (by omega)]
        by_cases hk3 : k - cd.length = 1
        · rw [hk3]
          simp [List.cons_prefix_cons]
        · obtain ⟨m, hm⟩ : ∃ m, k - cd.length = m + 2 := ⟨k - cd.length - 2, by omega⟩
          rw [hm]
          simp only [List.drop_succ_cons]
          exact cons_not_prefix_drop (fun b hb => (hct b hb).1) _ m (by omega)

theorem cd_starts (f : FormField) :
    (ascii "Content-Disposition").isPrefixOf (cdLineOf f) = true := by
  rw [List.isPrefixOf_iff_prefix]
  have hl : ascii "Content-Disposition" <+:
      ascii "Content-Disposition: form-data; name=\"" := by decide
  cases hopt : f.filename with
  | some fn => rw [cdLineOf_some hopt]; exact hl.trans (List.prefix_append _ _)
  | none => rw [cdLineOf_none hopt]; exact hl.trans (List.prefix_append _ _)

theorem parsePartBytes_decomp {u v part : Bytes}
    (hpart : part = u ++ ([13, 10, 13, 10] ++ v))
    (hclean : CleanBefore [13, 10, 13, 10] u) :
    parsePartBytes part =
      match (splitOnSeq crlf u).find?
          (fun line => (ascii "Content-Disposition").isPrefixOf line) with
      | none => none
      | some contentDisposition =>
        match rxCapture (ascii "filename=\"") contentDisposition,
              rxCapture (ascii "name=\"") contentDisposition with
        | some fn, some nm => some ⟨nm, fn, v⟩
        | _, _ => none := by
  have hnd : ascii "\r\n\r\n" = [13, 10, 13, 10] := by decide
  have h1 : bufIndexOf part (ascii "\r\n\r\n") 0 = some u.length := by
    rw [hnd]
    have := @bufIndexOf_resolve part [13, 10, 13, 10] u v 0 (by decide)
      (by rw [List.drop_zero]; exact hpart) hclean
    simpa using this
  have hheaders : subarray part 0 u.length = u := by
    simp only [subarray, Nat.sub_zero, List.drop_zero, hpart]
    exact List.take_left u _
  have hdata : part.drop (u.length + 4) = v := by
    rw [hpart, ← List.append_assoc]
    have hlen : (u ++ [13, 10, 13, 10]).length = u.length + 4 := by simp
    rw [← hlen, List.drop_left]
  simp only [parsePartBytes, h1, hheaders, hdata]

theorem parsePartBytes_interOf {f : FormField} (hn : NameSafe f.name)
    (hf : ∀ fn ∈ f.filename, HeaderSafe fn) :
    parsePartBytes (interOf f) = decodeField f := by
  have hcrlf_ne : crlf ≠ [] := by simp [crlf]
  cases hopt : f.filename with
  | some fn =>
    have hfs : HeaderSafe fn := hf fn (by simp [hopt])
    have hshape : interOf f =
        (crlf ++ cdLineOf f ++ crlf ++ ascii "Content-Type: application/octet-stream") ++
        ([13, 10, 13, 10] ++ (f.data ++ crlf)) := by
      simp [interOf, headerBlockOf, hopt, crlf, List.append_assoc]
    have hclean : CleanBefore [13, 10, 13, 10]
        (crlf ++ cdLineOf f ++ crlf ++ ascii "Content-Type: application/octet-stream") :=
      cleanBefore_header4 (cdLineOf_head f)
        ⟨ascii "ontent-Type: application/octet-stream", by decide⟩
        (cd_no_crlf hn hf) (by decide)
    rw [parsePartBytes_decomp hshape hclean]
    have hjoin : crlf ++ cdLineOf f ++ crlf ++ ascii "Content-Type: application/octet-stream" =
        joinSep crlf [[], cdLineOf f, ascii "Content-Type: application/octet-stream"] := by
      simp [joinSep, List.append_assoc]
    have hpieces : ∀ p ∈ [([] : Bytes), cdLineOf f,
        ascii "Content-Type: application/octet-stream"], CleanBefore crlf p := by
      intro p hp
      simp only [List.mem_cons, List.not_mem_nil, or_false] at hp
      rcases hp with rfl | rfl | rfl
      · exact fun i hi => absurd hi (by simp)
      · exact cleanBefore_of_notin_head (fun b hb => ((cd_no_crlf hn hf) b hb).1)
      · exact cleanBefore_of_notin_head
          (by decide : ∀ b ∈ ascii "Content-Type: application/octet-stream", b ≠ 13)
    rw [hjoin, splitOnSeq_joinSep hcrlf_ne _ (by simp) hpieces]
    rw [List.find?_cons_of_neg _ (by decide),
      List.find?_cons_of_pos _ (cd_starts f)]
    simp only [rxCapture_filename_some hopt hn hfs, rxCapture_name_some hopt hn]
    simp [decodeField, hopt]
  | none =>
    have hshape : interOf f =
        (crlf ++ cdLineOf f) ++ ([13, 10, 13, 10] ++ (f.data ++ crlf)) := by
      simp [interOf, headerBlockOf, hopt, crlf, List.append_assoc]
    have hclean : CleanBefore [13, 10, 13, 10] (crlf ++ cdLineOf f) :=
      cleanBefore_header2 (cdLineOf_head f) (cd_no_crlf hn hf)
    rw [parsePartBytes_decomp hshape hclean]
    have hjoin : crlf ++ cdLineOf f = joinSep crlf [[], cdLineOf f] := by
      simp [joinSep]
    have hpieces : ∀ p ∈ [([] : Bytes), cdLineOf f], CleanBefore crlf p := by
      intro p hp
      simp only [List.mem_cons, List.not_mem_nil, or_false] at hp
      rcases hp with rfl | rfl
      · exact fun i hi => absurd hi (by simp)
      · exact cleanBefore_of_notin_head (fun b hb => ((cd_no_crlf hn hf) b hb).1)
    rw [hjoin, splitOnSeq_joinSep hcrlf_ne _ (by simp) hpieces]
    rw [List.find?_cons_of_neg _ (by decide),
      List.find?_cons_of_pos _ (cd_starts f)]
    simp only [rxCapture_filename_none hopt hn]
    simp [decodeField, hopt]

theorem markOf_cons (boundary : Bytes) : markOf boundary = 45 :: 45 :: boundary := by
  have h : ascii "--" = [45, 45] := by decide
  simp [markOf, h]

theorem markOf_ne (boundary : Bytes) : markOf boundary ≠ [] := by
  rw [markOf_cons]; simp

theorem endMarkOf_ne (boundary : Bytes) : endMarkOf boundary ≠ [] := by
  rw [endMarkOf, markOf_cons]; simp

theorem markOf_prefix_endMarkOf (boundary : Bytes) :
    markOf boundary <+: endMarkOf boundary :=
  List.prefix_append _ _

theorem marker_none_inFinal {body boundary : Bytes} {partStart : Nat}
    (hb : BoundaryOk boundary)
    (hdrop : body.drop partStart = ascii "--" ++ crlf) :
    bufIndexOf body (markOf boundary) partStart = none := by
  rw [bufIndexOf_eq_none_iff (markOf_ne boundary)]
  intro j hj
  have hjd : body.drop j = (ascii "--" ++ crlf).drop (j - partStart) := by
    have h2 : partStart + (j - partStart) = j := by omega
    calc body.drop j = body.drop (partStart + (j - partStart)) := by rw [h2]
      _ = (ascii "--" ++ crlf).drop (j - partStart) := by
          rw [← List.drop_drop, hdrop]
  rw [hjd, markOf_cons, (by decide : ascii "--" ++ crlf = [45, 45, 13, 10])]
  obtain ⟨b0, btail, rfl⟩ : ∃ b0 bt, boundary = b0 :: bt := by
    cases boundary with
    | nil => exact absurd rfl hb.1
    | cons x t => exact ⟨x, t, rfl⟩
  have hb0 : b0 ≠ 13 := (hb.2 b0 (by simp)).1
  match hm : j - partStart with
  | 0 =>
    intro hcon
    simp only [List.drop_zero, List.cons_prefix_cons] at hcon
    exact hb0 hcon.2.2.1
  | 1 => simp [List.cons_prefix_cons]
  | 2 => simp [List.cons_prefix_cons]
  | 3 => simp [List.cons_prefix_cons]
  | (m + 4) => simp

theorem parseLoop_encode {boundary : Bytes} (hb : BoundaryOk boundary) :
    ∀ (fields : List FormField) (body : Bytes) (start fuel : Nat),
      body.drop start = markOf boundary ++ restOf boundary fields →
      (∀ f ∈ fields, FieldOk boundary f) →
      fields.length < fuel →
      parseLoop body (markOf boundary) (endMarkOf boundary) fuel start =
        fields.filterMap decodeField := by
  intro fields
  induction fields with
  | nil =>
    intro body start fuel hdrop hok hfuel
    obtain ⟨fuel, rfl⟩ : ∃ g, fuel = g + 1 := ⟨fuel - 1, by omega⟩
    have hfirst : bufIndexOf body (markOf boundary) start = some start :=
      bufIndexOf_head (markOf_ne boundary) hdrop
    have hdrop2 : body.drop (start + (markOf boundary).length) = ascii "--" ++ crlf := by
      have h := List.drop_drop (markOf boundary).length start body
      rw [hdrop] at h
      rw [← h, List.drop_left]
      simp [restOf]
    have hnone : bufIndexOf body (markOf boundary)
        (start + (markOf boundary).length) = none :=
      marker_none_inFinal hb hdrop2
    have hnone2 : bufIndexOf body (endMarkOf boundary)
        (start + (markOf boundary).length) = none :=
      bufIndexOf_sub_none (markOf_ne boundary) (endMarkOf_ne boundary)
        (markOf_prefix_endMarkOf boundary) hnone
    simp only [parseLoop, hfirst, hnone, hnone2, List.filterMap_nil]
  | cons f fs ih =>
    intro body start fuel hdrop hok hfuel
    obtain ⟨fuel, rfl⟩ : ∃ g, fuel = g + 1 := ⟨fuel - 1, by omega⟩
    have hokf : FieldOk boundary f := hok f (by simp)
    have hfirst : bufIndexOf body (markOf boundary) start = some start :=
      bufIndexOf_head (markOf_ne boundary) hdrop
    have hdropPS : body.drop (start + (markOf boundary).length) =
        interOf f ++ (markOf boundary ++ restOf boundary fs) := by
      have h := List.drop_drop (markOf boundary).length start body
      rw [hdrop] at h
      rw [← h, List.drop_left]
      simp [restOf]
    have hsecond : bufIndexOf body (markOf boundary)
        (start + (markOf boundary).length) =
        some (start + (markOf boundary).length + (interOf f).length) :=
      bufIndexOf_resolve (markOf_ne boundary) hdropPS hokf.2.2
    set partStart := start + (markOf boundary).length with hPSdef
    set partEnd := partStart + (interOf f).length with hPEdef
    have hdropPE : body.drop partEnd = markOf boundary ++ restOf boundary fs := by
      have h := List.drop_drop (interOf f).length partStart body
      rw [hdropPS] at h
      rw [hPEdef, ← h, List.drop_left]
    have hsub : subarray body partStart partEnd = interOf f := by
      simp only [subarray]
      have he : partEnd - partStart = (interOf f).length := by omega
      rw [he, hdropPS]
      exact List.take_left _ _
    have hparse : parsePartBytes (subarray body partStart partEnd) = decodeField f := by
      rw [hsub]
      exact parsePartBytes_interOf hokf.1 hokf.2.1
    cases fs with
    | nil =>
      have hend : bufIndexOf body (endMarkOf boundary) partStart = some partEnd := by
        rw [bufIndexOf_eq_some_iff (endMarkOf_ne boundary)]
        refine ⟨by omega, ?_, ?_⟩
        · rw [hdropPE, restOf, endMarkOf]
          exact ⟨crlf, by simp [List.append_assoc]⟩
        · intro j hj1 hj2 hcon
          have hmin :=
            ((bufIndexOf_eq_some_iff (markOf_ne boundary) partStart partEnd).mp
              hsecond).2.2
          exact hmin j hj1 hj2 ((markOf_prefix_endMarkOf boundary).trans hcon)
      simp only [parseLoop, hfirst, hsecond, hend, if_pos rfl, hparse]
      cases hdf : decodeField f <;> simp [List.filterMap_cons, hdf]
    | cons g gs =>
      have hne : bufIndexOf body (endMarkOf boundary) partStart ≠ some partEnd := by
        intro hcon
        have hpre :=
          ((bufIndexOf_eq_some_iff (endMarkOf_ne boundary) partStart partEnd).mp
            hcon).2.1
        rw [hdropPE, endMarkOf] at hpre
        rw [List.prefix_append_right_inj] at hpre
        have hrest : restOf boundary (g :: gs) = 13 :: (10 :: (headerBlockOf g ++
            g.data ++ crlf) ++ (markOf boundary ++ restOf boundary gs)) := by
          simp [restOf, interOf, crlf, List.append_assoc]
        rw [hrest, (by decide : ascii "--" = [45, 45])] at hpre
        simp [List.cons_prefix_cons] at hpre
      simp only [parseLoop, hfirst, hsecond, if_neg hne, hparse]
      rw [ih body partEnd fuel hdropPE (fun x hx => hok x (by simp [hx]))
        (by simp only [List.length_cons] at hfuel ⊢; omega)]
      cases hdf : decodeField f <;> simp [List.filterMap_cons, hdf]

theorem length_encodeMultipart_ge (boundary : Bytes) (fields : List FormField) :
    fields.length ≤ (encodeMultipart boundary fields).length := by
  induction fields with
  | nil => simp
  | cons f fs ih =>
    have hstep : encodeMultipart boundary (f :: fs) =
        encodeField boundary f ++ encodeMultipart boundary fs := by
      simp [encodeMultipart, List.append_assoc]
    rw [hstep]
    have h2 : (ascii "--").length = 2 := by decide
    have hef : 1 ≤ (encodeField boundary f).length := by
      simp [encodeField, List.length_append, h2]
      omega
    simp only [List.length_append, List.length_cons]
    omega

theorem parseMultipart_encode {boundary : Bytes} {fields : List FormField}
    (hv : ValidUpload boundary fields) :
    parseMultipart (encodeMultipart boundary fields) boundary =
      fields.filterMap decodeField := by
  have hlen : fields.length < (encodeMultipart boundary fields).length + 1 := by
    have := length_encodeMultipart_ge boundary fields
    omega
  exact parseLoop_encode hv.1 fields _ 0 _
    (by rw [List.drop_zero, encodeMultipart_eq_restOf]) hv.2 hlen

theorem parseMultipart_of_no_marker {body boundary : Bytes}
    (h : ∀ j, j < body.length → ¬ (ascii "--" ++ boundary) <+: body.drop j) :
    parseMultipart body boundary = [] := by
  have hne : ascii "--" ++ boundary ≠ [] := by
    rw [(by decide : ascii "--" = [45, 45])]
    simp
  have hnone : bufIndexOf body (ascii "--" ++ boundary) 0 = none := by
    rw [bufIndexOf_eq_none_iff hne]
    intro j _ hcon
    by_cases hj : j < body.length
    · exact h j hj hcon
    · rw [List.drop_eq_nil_of_le (by omega)] at hcon
      exact hne (List.prefix_nil.mp hcon)
  simp only [parseMultipart, parseLoop, hnone]

/-- toField converts a source MultipartPart into the encoder field that
carries it. -/
def toField (p : MultipartPart) : FormField := ⟨p.name, some p.filename, p.data⟩

/-- withTrailingCrlf appends the CRLF the encoder writes after each
payload, the one difference the round-trip law allows. -/
def withTrailingCrlf (p : MultipartPart) : MultipartPart :=
  ⟨p.name, p.filename, p.data ++ crlf⟩

/-- Claim C2: for every valid pair of boundary and parts, encoding the
parts into a multipart body with that boundary and decoding it with
parseMultipart returns the original parts in order, equal in name,
filename and data, except that each data carries the trailing CRLF the
encoder appends per part. -/
theorem claim_C2_roundtrip (boundary : Bytes) (ps : List MultipartPart)
    (hv : ValidUpload boundary (ps.map toField)) :
    parseMultipart (encodeMultipart boundary (ps.map toField)) boundary =
      ps.map withTrailingCrlf := by
  rw [parseMultipart_encode hv]
  clear hv
  induction ps with
  | nil => simp
  | cons p rest ih =>
    simp only [List.map_cons, List.filterMap_cons, decodeField, toField,
      Option.map_some', withTrailingCrlf]
    rw [ih]

theorem claim_C2_witness :
    ValidUpload (ascii "XB") (([⟨ascii "file", ascii "a.txt", ascii "hi"⟩] :
      List MultipartPart).map toField) ∧
    parseMultipart (encodeMultipart (ascii "XB")
        (([⟨ascii "file", ascii "a.txt", ascii "hi"⟩] :
          List MultipartPart).map toField)) (ascii "XB") =
      [⟨ascii "file", ascii "a.txt", ascii "hi" ++ crlf⟩] :=
  ⟨by decide, by
    have h := claim_C2_roundtrip (ascii "XB")
      [⟨ascii "file", ascii "a.txt", ascii "hi"⟩] (by decide)
    simpa [withTrailingCrlf] using h⟩

/-- Claim C3: parseMultipart is a total function by construction, and
decoding a body in which the dash-dash-boundary marker never occurs
yields the empty list, not an error. -/
theorem claim_C3_no_marker_empty (body boundary : Bytes)
    (h : ∀ j, j < body.length → ¬ (ascii "--" ++ boundary) <+: body.drop j) :
    parseMultipart body boundary = [] :=
  parseMultipart_of_no_marker h

theorem claim_C3_witness :
    (∀ j, j < (ascii "hello").length →
      ¬ (ascii "--" ++ ascii "X") <+: (ascii "hello").drop j) ∧
    parseMultipart (ascii "hello") (ascii "X") = [] :=
  ⟨by decide, claim_C3_no_marker_empty _ _ (by decide)⟩

/-- Claim C7: in an encoded multipart body every part lacking a filename
attribute is dropped from the decoded output while all other parts
decode unaffected, in order; and a part with no Content-Disposition
line at all is silently dropped rather than raising an error. -/
theorem claim_C7_drop_rules :
    (∀ (boundary : Bytes) (fields : List FormField),
      ValidUpload boundary fields →
      parseMultipart (encodeMultipart boundary fields) boundary =
        fields.filterMap (fun f => f.filename.map
          (fun fn => MultipartPart.mk f.name fn (f.data ++ crlf)))) ∧
    parseMultipart (ascii "--b\r\nX-Custom: 1\r\n\r\ndata\r\n--b--\r\n")
      (ascii "b") = [] := by
  constructor
  · intro boundary fields hv
    rw [parseMultipart_encode hv]
    rfl
  · decide

theorem claim_C7_witness :
    ValidUpload (ascii "XB") [⟨ascii "a", some (ascii "f.txt"), ascii "p"⟩,
      ⟨ascii "b", none, ascii "q"⟩] ∧
    parseMultipart (encodeMultipart (ascii "XB")
        [⟨ascii "a", some (ascii "f.txt"), ascii "p"⟩,
         ⟨ascii "b", none, ascii "q"⟩]) (ascii "XB") =
      [⟨ascii "a", ascii "f.txt", ascii "p" ++ crlf⟩] :=
  ⟨by decide, by
    have h := claim_C7_drop_rules.1 (ascii "XB")
      [⟨ascii "a", some (ascii "f.txt"), ascii "p"⟩,
       ⟨ascii "b", none, ascii "q"⟩] (by decide)
    simpa using h⟩

/-- splitOnChar c s splits the char list s at every occurrence of c, as
the JavaScript split on a one-char separator does. -/
def splitOnChar (c : Char) : List Char → List (List Char)
  | [] => [[]]
  | x :: rest =>
    if x = c then [] :: splitOnChar c rest
    else
      match splitOnChar c rest with
      | [] => [[x]]
      | seg :: segs => (x :: seg) :: segs

/-- joinSlash interleaves the path separator between segments. -/
def joinSlash : List (List Char) → List Char
  | [] => []
  | [s] => s
  | s :: rest => s ++ '/' :: joinSlash rest

/-- normSegsGo mirrors normalizeString of the Node posix path code: walk
the segments, drop empty and single-dot segments, resolve a dot-dot
against the accumulator, and when allowAbove is set keep leading dot-dot
segments of relative paths.  The accumulator is kept reversed. -/
def normSegsGo (allowAbove : Bool) : List (List Char) → List (List Char) → List (List Char)
  | acc, [] => acc.reverse
  | acc, s :: rest =>
    if s = [] ∨ s = ['.'] then normSegsGo allowAbove acc rest
    else if s = ['.', '.'] then
      match acc with
      | [] => normSegsGo allowAbove (if allowAbove then [['.', '.']] else []) rest
      | a :: as =>
        if a = ['.', '.'] then
          normSegsGo allowAbove (if allowAbove then ['.', '.'] :: a :: as else a :: as) rest
        else normSegsGo allowAbove as rest
    else normSegsGo allowAbove (s :: acc) rest

/-- pathNormalizeChars is Node path.posix.normalize on char lists. -/
def pathNormalizeChars (p : List Char) : List Char :=
  if p = [] then ['.']
  else
    let isAbs := decide (p.head? = some '/')
    let trail := decide (p.getLast? = some '/')
    let core := joinSlash (normSegsGo (!isAbs) [] (splitOnChar '/' p))
    if core = [] then
      if isAbs then ['/'] else if trail then ['.', '/'] else ['.']
    else
      let core2 := if trail then core ++ ['/'] else core
      if isAbs then '/' :: core2 else core2

/-- pathNormalize models path.normalize (posix behaviour, as the spec
and code assume a posix root). -/
def pathNormalize (p : String) : String := ⟨pathNormalizeChars p.data⟩

/-- pathJoin models path.join on two arguments: filter out empty parts,
join with a slash and normalize; the join of two empty strings is the
current directory dot. -/
def pathJoin (a b : String) : String :=
  if a = "" ∧ b = "" then "."
  else if a = "" then pathNormalize b
  else if b = "" then pathNormalize a
  else ⟨pathNormalizeChars (a.data ++ '/' :: b.data)⟩

/-- pathResolveChars models Node path.posix.resolve on one argument:
absolute inputs are normalized without keeping a trailing slash;
relative inputs resolve against the working directory, modelled here as
the root slash. -/
def pathResolveChars (p : List Char) : List Char :=
  let q := if p.head? = some '/' then p else '/' :: p
  let core := joinSlash (normSegsGo false [] (splitOnChar '/' q))
  if core = [] then ['/'] else '/' :: core

/-- pathResolve models path.resolve on one argument. -/
def pathResolve (p : String) : String := ⟨pathResolveChars p.data⟩

/-- strStartsWith models the JavaScript String startsWith method. -/
def strStartsWith (s pre : String) : Bool := pre.data.isPrefixOf s.data

/-- strIncludes models the JavaScript String includes method: substring
occurrence anywhere. -/
def strIncludes (sub s : String) : Bool := (findIdx0 sub.data s.data).isSome

/-- PipelineError is the error taxonomy the orchestrator maps to status
codes: SecurityViolationError to 403, the body-too-large error to 413,
anything else to 500. -/
inductive PipelineError
  | security (message : String)
  | bodyTooLarge
  | generic (message : String)
deriving DecidableEq

/-- RequestContext mirrors the context record: the decoded request path,
the root-joined file path and the collected body. -/
structure RequestContext where
  requestPath : String
  filePath : String
  body : Option Bytes
deriving DecidableEq

/-- resolvePath mirrors resolvePath of the request context factory:
join the decoded request path onto the configured root. -/
def resolvePath (requestPath : String) (root : String) : String :=
  pathJoin root requestPath

/-- validatePath mirrors validatePath of the factory: a plain string
prefix check of the joined path against the configured root. -/
def validatePath (filePath : String) (root : String) : Bool :=
  strStartsWith filePath root

/-- createRequestContext mirrors the request context factory.  URL
parsing and percent decoding happen upstream of the checks, so the
input here is the decoded pathname. -/
def createRequestContext (pathname : String) (root : String) :
    Except PipelineError RequestContext :=
  let requestPath := pathname
  let filePath := resolvePath requestPath root
  if ¬ validatePath filePath root then
    .error (.security "Path validation failed - potential directory traversal")
  else
    .ok ⟨requestPath, filePath, none⟩

/-- security mirrors the security middleware: re-resolve and normalize
the file path, assert prefix containment against the resolved root, and
then scan the normalized request path for a dot-dot sequence. -/
def security (ctx : RequestContext) (root : String) : Except PipelineError Unit :=
  let resolvedPath := pathResolve ctx.filePath
  let normalizedPath := pathNormalize resolvedPath
  let rootResolved := pathResolve root
  if ¬ strStartsWith normalizedPath rootResolved then
    .error (.security "Security violation: directory traversal attempt detected")
  else
    let normalizedRequestPath := pathNormalize ctx.requestPath
    if strIncludes ".." normalizedRequestPath then
      .error (.security "Security violation: invalid path sequence detected")
    else
      .ok ()

/-- MAX_BODY_SIZE is the fixed 100 MiB request body ceiling. -/
def MAX_BODY_SIZE : Nat := 100 * 1024 * 1024

/-- collectBodyGo mirrors the data-event handler of collectBody: add the
chunk length to the running total, reject with the body-too-large error
once the total exceeds the ceiling, otherwise append the chunk. -/
def collectBodyGo : List Bytes → List Bytes → Nat → Except PipelineError Bytes
  | [], chunks, _ => .ok chunks.flatten
  | c :: rest, chunks, totalSize =>
    let totalSize2 := totalSize + c.length
    if totalSize2 > MAX_BODY_SIZE then .error .bodyTooLarge
    else collectBodyGo rest (chunks ++ [c]) totalSize2

/-- collectBody models collectBody of the body collector: the request
stream is its list of chunks in arrival order; the result is the single
concatenated buffer, as Buffer.concat produces, or the rejection the
orchestrator maps to 413. -/
def collectBody (stream : List Bytes) : Except PipelineError Bytes :=
  collectBodyGo stream [] 0

/-- HandlerKind names the four terminal handlers the router selects. -/
inductive HandlerKind
  | asset
  | upload
  | listing
  | file
deriving DecidableEq

/-- HandlerResult mirrors the router result record: either a deferred
handler or a terminal status code with a message. -/
inductive HandlerResult
  | handler (kind : HandlerKind)
  | status (code : Nat) (message : String)
deriving DecidableEq

/-- StatOutcome models the fs.stat call on the resolved file path:
either the entry with its directory flag, or the error code carried by
the rejected promise. -/
inductive StatOutcome
  | entry (isDirectory : Bool)
  | failure (code : String)
deriving DecidableEq

/-- router mirrors router of the middleware: the reserved asset prefix
short-circuits before any stat; otherwise the stat outcome dispatches,
with the not-found code becoming 404 and any other failure 500. -/
def router (requestPath method : String) (stat : StatOutcome) : HandlerResult :=
  if strStartsWith requestPath "/_httpoint_assets/" then
    .handler .asset
  else
    match stat with
    | .entry true =>
      if method = "POST" then .handler .upload else .handler .listing
    | .entry false => .handler .file
    | .failure code =>
      if code = "ENOENT" then .status 404 "Not Found"
      else .status 500 "Internal Server Error"

/-- matchBoundary models the content-type match against the regex
boundary=(.+): the capture is everything after the first boundary=
token, and the match fails when nothing follows it. -/
def matchBoundary (ct : String) : Option String :=
  let pat := "boundary=".data
  match findIdx0 pat ct.data with
  | none => none
  | some i =>
    let rest := ct.data.drop (i + pat.length)
    if rest = [] then none else some ⟨rest⟩

/-- bytesToString models Buffer.toString on part filenames; on the
ASCII text this system handles it is the byte-to-char identity. -/
def bytesToString (b : Bytes) : String := ⟨b.map Char.ofNat⟩

/-- UploadOutcome records what directoryUploadHandler does: the response
status code and text, and the files written (path and data) in order. -/
structure UploadOutcome where
  statusCode : Nat
  body : String
  writes : List (String × Bytes)
deriving DecidableEq

/-- directoryUploadHandler mirrors directoryUploadHandler of the router
module: validate the content type, extract the boundary, decode the
collected body and write every decoded part under its client-supplied
filename inside the resolved directory, then confirm with 200. -/
def directoryUploadHandler (contentType : Option String) (body : Option Bytes)
    (dirPath : String) : UploadOutcome :=
  match contentType with
  | none => ⟨400, "Invalid content type", []⟩
  | some ct =>
    if ¬ strStartsWith ct "multipart/form-data" then
      ⟨400, "Invalid content type", []⟩
    else
      match matchBoundary ct, body with
      | some boundary, some b =>
        let parts := parseMultipart b (ascii boundary)
        ⟨200, "Files uploaded successfully",
          parts.map (fun p => (pathJoin dirPath (bytesToString p.filename), p.data))⟩
      | _, _ => ⟨400, "Invalid boundary or request body", []⟩

/-- PipelineResult captures the observable outcome of executePipeline:
the response status, its text when the model tracks it, which handler
ran, and the files written. -/
structure PipelineResult where
  statusCode : Nat
  responseBody : String
  invoked : Option HandlerKind
  writes : List (String × Bytes)
deriving DecidableEq

/-- errorResult is the catch block of executePipeline, the single place
mapping an error kind to a status response; no handler runs and no file
is written on the error path. -/
def errorResult : PipelineError → PipelineResult
  | .security _ => ⟨403, "Forbidden", none, []⟩
  | .bodyTooLarge => ⟨413, "Request Entity Too Large", none, []⟩
  | .generic _ => ⟨500, "Internal Server Error", none, []⟩

/-- runHandler models handler execution: the upload handler in full;
the three streaming handlers set status 200 and stream bytes outside
this model, writing no files. -/
def runHandler (kind : HandlerKind) (ctx : RequestContext)
    (contentType : Option String) : Nat × String × List (String × Bytes) :=
  match kind with
  | .upload =>
    let r := directoryUploadHandler contentType ctx.body ctx.filePath
    (r.statusCode, r.body, r.writes)
  | _ => (200, "", [])

/-- executePipeline mirrors executePipeline of the middleware pipeline:
context factory, security guard, body collector, router, then the
selected handler, with the catch block translating a thrown error into
its status response. -/
def executePipeline (method pathname : String) (contentType : Option String)
    (stream : List Bytes) (root : String) (fsStat : String → StatOutcome) :
    PipelineResult :=
  match createRequestContext pathname root with
  | .error e => errorResult e
  | .ok ctx =>
    match security ctx root with
    | .error e => errorResult e
    | .ok _ =>
      match collectBody stream with
      | .error e => errorResult e
      | .ok body =>
        let ctx2 : RequestContext := { ctx with body := some body }
        match router ctx2.requestPath method (fsStat ctx2.filePath) with
        | .handler kind =>
          let r := runHandler kind ctx2 contentType
          ⟨r.1, r.2.1, some kind, r.2.2⟩
        | .status code message => ⟨code, message, none, []⟩

/-- Claim C1 (amended): every request whose decoded path still contains
a dot-dot sequence after normalization is answered 403 Forbidden with no
handler invoked and no file written, for every root, method, body and
filesystem; the factory check and the guard check together guarantee
this, but a path whose dot-dot segments collapse inside the root during
normalization is served normally (see the counterexample). -/
theorem claim_C1_dotdot_403 (method pathname : String) (ct : Option String)
    (stream : List Bytes) (root : String) (fsStat : String → StatOutcome)
    (h : strIncludes ".." (pathNormalize pathname) = true) :
    executePipeline method pathname ct stream root fsStat =
      ⟨403, "Forbidden", none, []⟩ := by
  by_cases hv : validatePath (resolvePath pathname root) root
  · have hctx : createRequestContext pathname root =
        .ok ⟨pathname, resolvePath pathname root, none⟩ := by
      simp [createRequestContext, hv]
    by_cases hp : strStartsWith
        (pathNormalize (pathResolve (resolvePath pathname root))) (pathResolve root)
    · have hsec : security ⟨pathname, resolvePath pathname root, none⟩ root =
          .error (.security "Security violation: invalid path sequence detected") := by
        simp [security, hp, h]
      simp only [executePipeline, hctx, hsec, errorResult]
    · have hsec : security ⟨pathname, resolvePath pathname root, none⟩ root =
          .error (.security "Security violation: directory traversal attempt detected") := by
        simp [security, hp]
      simp only [executePipeline, hctx, hsec, errorResult]
  · have hctx : createRequestContext pathname root =
        .error (.security "Path validation failed - potential directory traversal") := by
      simp [createRequestContext, hv]
    simp only [executePipeline, hctx, errorResult]

/-- Claim C1 counterexample: the decoded request path /a/../b contains a
dot-dot segment, yet with root /srv the pipeline does not answer 403: the
factory joins it to /srv/b, both guard checks accept it, and the router
dispatches to the file handler, so the file is read. -/
theorem claim_C1_counterexample :
    strIncludes ".." "/a/../b" = true ∧
    executePipeline "GET" "/a/../b" none [] "/srv" (fun _ => .entry false) =
      ⟨200, "", some .file, []⟩ := by
  constructor
  · decide
  · rfl

theorem claim_C1_witness :
    strIncludes ".." (pathNormalize "/a..b") = true ∧
    executePipeline "GET" "/a..b" none [] "/srv" (fun _ => .entry false) =
      ⟨403, "Forbidden", none, []⟩ :=
  ⟨by decide, claim_C1_dotdot_403 "GET" "/a..b" none [] "/srv" _ (by decide)⟩

/-- Claim C4: the router selects in the documented order: the reserved
asset prefix short-circuits unconditionally with no existence check;
otherwise a stat failure with the not-found code yields status 404, any
other stat failure yields status 500, a directory entry routes to the
upload handler exactly when the method is POST and to the listing
handler otherwise, and a non-directory entry routes to the file
handler. -/
theorem claim_C4_router_order (requestPath method : String) (st : StatOutcome) :
    (strStartsWith requestPath "/_httpoint_assets/" = true →
      router requestPath method st = .handler .asset) ∧
    (strStartsWith requestPath "/_httpoint_assets/" = false →
      (router requestPath method (.failure "ENOENT") = .status 404 "Not Found") ∧
      (∀ code, code ≠ "ENOENT" →
        router requestPath method (.failure code) =
          .status 500 "Internal Server Error") ∧
      (method = "POST" → router requestPath method (.entry true) = .handler .upload) ∧
      (method ≠ "POST" → router requestPath method (.entry true) = .handler .listing) ∧
      (router requestPath method (.entry false) = .handler .file)) := by
  constructor
  · intro h
    simp [router, h]
  · intro h
    refine ⟨by simp [router, h], fun code hc => by simp [router, h, hc],
      fun hm => by simp [router, h, hm], fun hm => by simp [router, h, hm],
      by simp [router, h]⟩

theorem claim_C4_witness :
    strStartsWith "/_httpoint_assets/app.css" "/_httpoint_assets/" = true ∧
    router "/_httpoint_assets/app.css" "GET" (.failure "EACCES") = .handler .asset ∧
    strStartsWith "/docs" "/_httpoint_assets/" = false ∧
    router "/docs" "POST" (.entry true) = .handler .upload ∧
    router "/docs" "GET" (.failure "ENOENT") = .status 404 "Not Found" :=
  ⟨by decide,
   (claim_C4_router_order "/_httpoint_assets/app.css" "GET" (.failure "EACCES")).1
     (by decide),
   by decide,
   ((claim_C4_router_order "/docs" "POST" (.entry true)).2 (by decide)).2.2.1 rfl,
   ((claim_C4_router_order "/docs" "GET" (.failure "ENOENT")).2 (by decide)).1⟩

/-- Claim C5: a POST upload whose Content-Type header is missing, does
not begin with multipart/form-data, or lacks a nonempty boundary=
parameter is answered 400 with a descriptive message and writes no
file, so the directory contents are unchanged. -/
theorem claim_C5_bad_content_type (contentType : Option String) (body : Option Bytes)
    (dirPath : String)
    (h : ∀ ct, contentType = some ct →
      strStartsWith ct "multipart/form-data" = false ∨ matchBoundary ct = none) :
    (directoryUploadHandler contentType body dirPath).statusCode = 400 ∧
    (directoryUploadHandler contentType body dirPath).writes = [] := by
  match hct : contentType with
  | none => simp [directoryUploadHandler]
  | some ct =>
    rcases h ct rfl with hs | hb
    · simp [directoryUploadHandler, hs]
    · by_cases hs2 : strStartsWith ct "multipart/form-data"
      · cases body with
        | none => simp [directoryUploadHandler, hs2, hb]
        | some b => simp [directoryUploadHandler, hs2, hb]
      · simp [directoryUploadHandler, hs2]

theorem claim_C5_witness :
    (∀ ct, (some "application/json" : Option String) = some ct →
      strStartsWith ct "multipart/form-data" = false ∨ matchBoundary ct = none) ∧
    (directoryUploadHandler (some "application/json")
      (some (ascii "x")) "/srv/up").statusCode = 400 ∧
    (directoryUploadHandler (some "application/json")
      (some (ascii "x")) "/srv/up").writes = [] :=
  ⟨fun ct hct => by cases hct; exact Or.inl (by decide),
   claim_C5_bad_content_type (some "application/json") (some (ascii "x")) "/srv/up"
     (fun ct hct => by cases hct; exact Or.inl (by decide))⟩

/-- sumLen is the total byte count of a chunk list. -/
def sumLen (chunks : List Bytes) : Nat := (chunks.map List.length).sum

theorem collectBody_append_err (pre suf : List Bytes)
    (h : MAX_BODY_SIZE < sumLen pre) :
    collectBody (pre ++ suf) = .error .bodyTooLarge := by
  have haux : ∀ (l : List Bytes) (acc : List Bytes) (t : Nat),
      t ≤ MAX_BODY_SIZE → MAX_BODY_SIZE < t + sumLen l →
      ∀ suf2, collectBodyGo (l ++ suf2) acc t = .error .bodyTooLarge := by
    intro l
    induction l with
    | nil =>
      intro acc t h1 h2 suf2
      simp [sumLen] at h2
      omega
    | cons c rest ih =>
      intro acc t h1 h2 suf2
      simp only [List.cons_append, collectBodyGo]
      by_cases hc : t + c.length > MAX_BODY_SIZE
      · rw [if_pos hc]
      · rw [if_neg hc]
        have h2' : MAX_BODY_SIZE < (t + c.length) + sumLen rest := by
          simp only [sumLen, List.map_cons, List.sum_cons] at h2 ⊢
          omega
        exact ih _ _ (by omega) h2' suf2
  exact haux pre [] 0 (by omega) (by simpa using h) suf

/-- Claim C6: once the running total of received chunks exceeds the 100
MiB ceiling, body collection rejects with the body-too-large error —
chunks still queued after that point are never consumed and the partial
data is discarded — and for a request past the security stage the
orchestrator answers 413 with no handler invoked and no file written. -/
theorem claim_C6_body_too_large (method pathname : String) (ct : Option String)
    (pre suf : List Bytes) (root : String) (fsStat : String → StatOutcome)
    (ctx : RequestContext)
    (hctx : createRequestContext pathname root = .ok ctx)
    (hsec : security ctx root = .ok ())
    (hbig : MAX_BODY_SIZE < sumLen pre) :
    executePipeline method pathname ct (pre ++ suf) root fsStat =
      ⟨413, "Request Entity Too Large", none, []⟩ := by
  simp only [executePipeline, hctx, hsec, collectBody_append_err pre suf hbig,
    errorResult]

theorem claim_C6_witness :
    createRequestContext "/file.txt" "/srv" = .ok ⟨"/file.txt", "/srv/file.txt", none⟩ ∧
    security ⟨"/file.txt", "/srv/file.txt", none⟩ "/srv" = .ok () ∧
    MAX_BODY_SIZE < sumLen [List.replicate (MAX_BODY_SIZE + 1) 0] ∧
    executePipeline "POST" "/file.txt" none
      ([List.replicate (MAX_BODY_SIZE + 1) 0] ++ []) "/srv" (fun _ => .entry false) =
      ⟨413, "Request Entity Too Large", none, []⟩ :=
  ⟨by rfl, by rfl, by simp [sumLen],
   claim_C6_body_too_large "POST" "/file.txt" none _ _ "/srv" _ _
     (by rfl) (by rfl) (by simp [sumLen])⟩

/-- Claim C10: a POST to a directory with a well-formed multipart
content type whose collected body decodes to no parts — for instance
when the boundary marker never occurs in it — is answered 200 Files
uploaded successfully with no file written, indistinguishable from a
successful upload. -/
theorem claim_C10_zero_file_upload (ct : String) (body : Bytes) (dirPath : String)
    (boundary : String)
    (hs : strStartsWith ct "multipart/form-data" = true)
    (hb : matchBoundary ct = some boundary)
    (hp : parseMultipart body (ascii boundary) = []) :
    directoryUploadHandler (some ct) (some body) dirPath =
      ⟨200, "Files uploaded successfully", []⟩ := by
  simp [directoryUploadHandler, hs, hb, hp]

theorem claim_C10_witness :
    strStartsWith "multipart/form-data; boundary=X" "multipart/form-data" = true ∧
    matchBoundary "multipart/form-data; boundary=X" = some "X" ∧
    parseMultipart (ascii "hello") (ascii "X") = [] ∧
    directoryUploadHandler (some "multipart/form-data; boundary=X")
      (some (ascii "hello")) "/srv/dir" = ⟨200, "Files uploaded successfully", []⟩ :=
  ⟨by decide, by decide, by decide,
   claim_C10_zero_file_upload "multipart/form-data; boundary=X" (ascii "hello")
     "/srv/dir" "X" (by decide) (by decide) (by decide)⟩

/-- formatUnits is the unit table of formatFileSize. -/
def formatUnits : List String := ["B", "KB", "MB", "GB", "TB"]

/-- tierLoop mirrors the while loop of formatFileSize.  The loop state
size equals bytes divided by 1024 to the power k exactly — each division
by 1024 only shifts the binary exponent, so the JavaScript double holds
the exact rational value — and the loop continues while size is at
least 1024 and the unit index is below the last unit.  Four steps
always suffice since the index is capped at four. -/
def tierLoop (bytes : Nat) (k : Nat) : Nat → Nat
  | 0 => k
  | fuel + 1 =>
    if 1024 ^ (k + 1) ≤ bytes ∧ k + 1 ≤ 4 then tierLoop bytes (k + 1) fuel
    else k

/-- sizeTier bytes is the unit index the loop reaches. -/
def sizeTier (bytes : Nat) : Nat := tierLoop bytes 0 4

/-- displayTenths bytes is ten times the displayed scale: the exact
value bytes over 1024 to the tier, rounded to one decimal place with
ties taken upward, as toFixed specifies on the exact value. -/
def displayTenths (bytes : Nat) : Nat :=
  let d := 1024 ^ sizeTier bytes
  (20 * bytes + d) / (2 * d)

/-- formatFileSize mirrors formatFileSize of the format utility: divide
by 1024 until below 1024 or at the terabyte unit, then print the value
with one decimal place and the unit name. -/
def formatFileSize (bytes : Nat) : String :=
  let n := displayTenths bytes
  toString (n / 10) ++ "." ++ toString (n % 10) ++ " " ++
    (formatUnits.getD (sizeTier bytes) "")

/-- DirEntry models one readdir entry together with its stat results:
the entry name, the directory flag and the byte size. -/
structure DirEntry where
  name : String
  isDir : Bool
  size : Nat

/-- hexDigit is an uppercase hexadecimal digit. -/
def hexDigit (n : Nat) : Char :=
  if n < 10 then Char.ofNat (48 + n) else Char.ofNat (55 + n)

/-- utf8Bytes gives the UTF-8 encoding of one character. -/
def utf8Bytes (c : Char) : List Nat :=
  let n := c.toNat
  if n < 128 then [n]
  else if n < 2048 then [192 + n / 64, 128 + n % 64]
  else if n < 65536 then [224 + n / 4096, 128 + (n / 64) % 64, 128 + n % 64]
  else [240 + n / 262144, 128 + (n / 4096) % 64, 128 + (n / 64) % 64, 128 + n % 64]

/-- uriUnreserved lists the characters encodeURIComponent passes
through unchanged. -/
def uriUnreserved (c : Char) : Bool :=
  c.isAlphanum ∨ c ∈ ['-', '_', '.', '!', '~', '*', '\'', '(', ')']

/-- encodeURIComponent models the JavaScript encoder: unreserved
characters pass through, every other character is percent-encoded per
UTF-8 byte with uppercase hex digits. -/
def encodeURIComponent (s : String) : String :=
  ⟨(s.data.map (fun c =>
      if uriUnreserved c then [c]
      else ((utf8Bytes c).map
        (fun b => ['%', hexDigit (b / 16), hexDigit (b % 16)])).flatten)).flatten⟩

/-- pathDirname models path.dirname (posix): the path up to the last
separator that is followed by a non-separator, with the leading root
slash never counted as that separator. -/
def pathDirname (p : String) : String :=
  match p.data with
  | [] => "."
  | c0 :: _ =>
    let hasRoot := c0 = '/'
    let rev1 := p.data.reverse.dropWhile (fun c => c = '/')
    let rev2 := rev1.dropWhile (fun c => c ≠ '/')
    match rev2 with
    | [] => if hasRoot then "/" else "."
    | _ :: rest =>
      if rest = [] then (if hasRoot then "/" else ".")
      else if hasRoot ∧ rest.length = 1 then "//"
      else ⟨rest.reverse⟩

/-- parentItemOf is the parent-directory entry the view pushes first. -/
def parentItemOf (requestPath : String) : String :=
  let parentPath := pathDirname requestPath
  let parentHref := if parentPath = "/" then "/" else parentPath
  "<li><a href=\"" ++ parentHref ++ "\">📁 ../</a></li>"

/-- dirItemOf is the entry the view pushes for a subdirectory. -/
def dirItemOf (requestPath : String) (e : DirEntry) : String :=
  let href := pathJoin requestPath (encodeURIComponent e.name)
  "<li><a href=\"" ++ href ++ "/\">📁 " ++ e.name ++ "/</a></li>"

/-- fileItemOf is the entry the view pushes for a regular file,
displaying its human readable size. -/
def fileItemOf (requestPath : String) (e : DirEntry) : String :=
  let href := pathJoin requestPath (encodeURIComponent e.name)
  "<li><a href=\"" ++ href ++ "\">📄 " ++ e.name ++
    "</a> <span style=\"color: #666;\">(" ++ formatFileSize e.size ++ ")</span></li>"

/-- renderListingPage is the HTML page template of the listing view,
with the item list joined by the source indentation. -/
def renderListingPage (requestPath : String) (allItems : List String) : String :=
  "\n<!DOCTYPE html>\n<html>\n<head>\n    <meta charset=\"utf-8\">\n    <title>Directory listing for "
    ++ requestPath ++
    "</title>\n    <link rel=\"stylesheet\" href=\"/_httpoint_assets/styles.css\">\n</head>\n<body>\n    <div class=\"header\">\n        <h1>Directory listing for "
    ++ requestPath ++
    "</h1>\n    </div>\n    <ul>\n        "
    ++ String.intercalate "\n        " allItems ++
    "\n    </ul>\n    <button class=\"upload-btn\" id=\"uploadBtn\">+</button>\n    <div class=\"upload-overlay\" id=\"uploadOverlay\">\n        <div class=\"upload-modal\">\n            <button class=\"close-btn\" id=\"closeBtn\">&times;</button>\n            <h2>Upload Files</h2>\n            <div class=\"drop-area\" id=\"dropArea\">Drag & drop files here or click to browse</div>\n            <input type=\"file\" class=\"file-input\" id=\"fileInput\" multiple style=\"display: none;\">\n            <div class=\"progress\" id=\"progress\">\n                <div class=\"progress-bar\" id=\"progressBar\"></div>\n            </div>\n        </div>\n    </div>\n    <script src=\"/_httpoint_assets/script.js\"></script>\n</body>\n</html>"

/-- generateDirectoryListing mirrors generateDirectoryListing of the
listing view.  The filesystem is passed in as the readdir result in
underlying read order, each entry already carrying its stat results;
the absolute directory path only feeds those stat calls and is not
otherwise used. -/
def generateDirectoryListing (requestPath : String) (entries : List DirEntry) : String :=
  let items : List String :=
    if requestPath ≠ "/" then [parentItemOf requestPath] else []
  let grouped := entries.foldl
    (fun (acc : List String × List String) e =>
      if e.isDir then (acc.1 ++ [dirItemOf requestPath e], acc.2)
      else (acc.1, acc.2 ++ [fileItemOf requestPath e]))
    ([], [])
  let allItems := items ++ grouped.1 ++ grouped.2
  renderListingPage requestPath allItems

theorem foldl_partition (requestPath : String) (entries : List DirEntry) :
    ∀ (d0 f0 : List String),
      entries.foldl
        (fun (acc : List String × List String) e =>
          if e.isDir then (acc.1 ++ [dirItemOf requestPath e], acc.2)
          else (acc.1, acc.2 ++ [fileItemOf requestPath e]))
        (d0, f0) =
      (d0 ++ (entries.filter (fun e => e.isDir)).map (dirItemOf requestPath),
       f0 ++ (entries.filter (fun e => !e.isDir)).map (fileItemOf requestPath)) := by
  induction entries with
  | nil => simp
  | cons e rest ih =>
    intro d0 f0
    by_cases hd : e.isDir
    · simp [List.foldl_cons, hd, ih, List.append_assoc]
    · simp [List.foldl_cons, hd, ih, List.append_assoc]

/-- Claim C8: the generated listing groups its entries in exactly the
documented order — the parent link first, omitted when the request path
is the served root, then all subdirectories in underlying read order,
then all regular files in underlying read order — and every file entry
displays its human readable size through formatFileSize, a five byte
file showing 5.0 B. -/
theorem claim_C8_listing_order :
    (∀ (requestPath : String) (entries : List DirEntry),
      generateDirectoryListing requestPath entries =
        renderListingPage requestPath
          ((if requestPath = "/" then [] else [parentItemOf requestPath]) ++
            (entries.filter (fun e => e.isDir)).map (dirItemOf requestPath) ++
            (entries.filter (fun e => !e.isDir)).map (fileItemOf requestPath))) ∧
    (∀ (requestPath : String) (e : DirEntry), fileItemOf requestPath e =
      "<li><a href=\"" ++ pathJoin requestPath (encodeURIComponent e.name) ++
        "\">📄 " ++ e.name ++ "</a> <span style=\"color: #666;\">(" ++
        formatFileSize e.size ++ ")</span></li>") ∧
    formatFileSize 5 = "5.0 B" := by
  refine ⟨?_, fun requestPath e => rfl, by decide⟩
  intro requestPath entries
  unfold generateDirectoryListing
  rw [foldl_partition]
  by_cases hr : requestPath = "/"
  · simp [hr, List.append_assoc]
  · simp [hr, List.append_assoc]

/-- Claim C9 (amended): the displayed scale is monotone within a unit
tier — for byte counts x at most y in the same tier, the rounded scale
of x is at most that of y — and for every n from one to four an input
of exactly 1024 to the power n renders as 1.0 of the next unit up.  At
n of five and beyond the unit table ends at TB, so the boundary law
fails there (see the counterexample). -/
theorem claim_C9_format_monotone :
    (∀ x y : Nat, x ≤ y → sizeTier x = sizeTier y →
      displayTenths x ≤ displayTenths y) ∧
    (∀ n, 1 ≤ n → n ≤ 4 →
      formatFileSize (1024 ^ n) = "1.0 " ++ formatUnits.getD n "") := by
  constructor
  · intro x y hxy ht
    unfold displayTenths
    rw [ht]
    exact Nat.div_le_div_right (by omega)
  · intro n h1 h4
    interval_cases n
    · decide
    · decide
    · decide
    · decide

/-- Claim C9 counterexample: the input 1024 to the power five renders
as 1024.0 TB — the unit table ends at TB and the loop caps the index —
not as 1.0 of a next unit up, so the boundary law fails at n of five;
the repository test suite pins this exact value. -/
theorem claim_C9_counterexample :
    formatFileSize (1024 ^ 5) = "1024.0 TB" ∧
    strStartsWith (formatFileSize (1024 ^ 5)) "1.0" = false := by
  constructor
  · decide
  · decide

theorem claim_C9_witness :
    (1536 ≤ 2048 ∧ sizeTier 1536 = sizeTier 2048 ∧
      displayTenths 1536 ≤ displayTenths 2048) ∧
    (1 ≤ 2 ∧ 2 ≤ 4 ∧ formatFileSize (1024 ^ 2) = "1.0 " ++ formatUnits.getD 2 "") :=
  ⟨⟨by decide, by decide,
    claim_C9_format_monotone.1 1536 2048 (by decide) (by decide)⟩,
   ⟨by decide, by decide, claim_C9_format_monotone.2 2 (by decide) (by decide)⟩⟩
